import Mathlib

/-!
Verification of the paxos repository's coordination kernel against its
specification.  The Python source is embedded shallowly:

* `Storage` models src/storage.py (line-oriented persistent value set);
* `Security` models src/security.py (field encoding and the byte string
  fed to SHA-256; the SHA-256 compression itself is an external library
  call and is not modelled — the claims are about its input);
* `Message` and the codec model src/network/message.py (header framing
  and the JSON payload produced by json.dumps / consumed by json.loads);
* `Handler` models src/app/paxos.py (the Paxos round state machine).

Bytes are `Nat` (< 256), byte strings `List Nat`.  Fallible Python code
(to_bytes overflow, struct.pack overflow, json decoding) is `Option`.
-/

namespace Storage

/-- State of src/storage.py `Storage`: the backing file's content and the
in-memory value set (`self._values`, modelled as a duplicate-free list). -/
structure State where
  file : String
  values : List String
deriving DecidableEq

/-- Python line splitting used by `for line in file`: each yielded line
keeps its trailing newline; a final chunk without a newline is yielded
as-is.  `acc` holds the current line's characters in reverse. -/
def splitLinesAux : List Char → List Char → List (List Char)
  | acc, [] => if acc.isEmpty then [] else [acc.reverse]
  | acc, c :: rest =>
    if c = '\n' then (acc.reverse ++ ['\n']) :: splitLinesAux [] rest
    else splitLinesAux (c :: acc) rest

/-- The lines of a file's content, Python iteration semantics. -/
def pythonLines (content : String) : List String :=
  (splitLinesAux [] content.data).map (fun l => String.mk l)

/-- Storage.__init__ seeding over an existing backing file: every line of
the file (newline included) is added to `self._values`. -/
def init (content : String) : State :=
  { file := content, values := pythonLines content }

/-- Storage.__contains__ : `value in self._values`. -/
def contains (s : State) (value : String) : Bool :=
  s.values.contains value

/-- Storage.add : if the value is absent, append the literal text
"value\n" to the file (an f-string with no interpolation in the source)
and add the argument to the in-memory set. -/
def add (s : State) (value : String) : State :=
  if s.values.contains value then s
  else { file := s.file ++ "value\n", values := s.values ++ [value] }

end Storage

namespace Security

/-- UTF-8 encoding of one unicode scalar (Python str.encode). -/
def utf8EncodeChar (c : Char) : List Nat :=
  let n := c.toNat
  if n < 128 then [n]
  else if n < 2048 then [192 + n / 64, 128 + n % 64]
  else if n < 65536 then [224 + n / 4096, 128 + n / 64 % 64, 128 + n % 64]
  else [240 + n / 262144, 128 + n / 4096 % 64, 128 + n / 64 % 64, 128 + n % 64]

/-- Python str.encode(): UTF-8 bytes of the string. -/
def encodeStr (s : String) : List Nat :=
  (s.data.map utf8EncodeChar).flatten

/-- Big-endian byte string of width `len` for a value known to fit. -/
def toBytesBE : Nat → Nat → List Nat
  | 0, _ => []
  | len + 1, n => toBytesBE len (n / 256) ++ [n % 256]

/-- Python int.to_bytes(len, "big"): raises OverflowError when the value
is negative or does not fit in `len` bytes. -/
def intToBytes (len : Nat) (n : Int) : Option (List Nat) :=
  if 0 ≤ n ∧ n < (256 : Int) ^ len then some (toBytesBE len n.toNat)
  else Option.none

/-- Python int.from_bytes(bytes, "big"). -/
def fromBytesBE (bs : List Nat) : Nat :=
  bs.foldl (fun a b => 256 * a + b) 0

/-- A Python value appearing as a message field.  Python `bool` is a
subclass of `int`, so `case int()` in Security._encode also catches
booleans (True encodes as 1, False as 0). -/
inductive Field where
  | int (n : Int)
  | str (s : String)
  | bool (b : Bool)
  | bytes (bs : List Nat)
  | none
deriving DecidableEq

/-- Security._encode: None → b"", int (and bool) → value.to_bytes(8,
"big"), str → UTF-8 bytes, bytes → as-is. -/
def encodeField : Field → Option (List Nat)
  | .none => some []
  | .int n => intToBytes 8 n
  | .bool b => intToBytes 8 (cond b 1 0)
  | .str s => some (encodeStr s)
  | .bytes bs => some bs

/-- The concatenation b"".join(self._encode(value) for value in values)
over the non-hash items of dataclasses.asdict, in declared field order;
fails (OverflowError propagates) if any field fails to encode. -/
def encodeFields : List (String × Field) → Option (List Nat)
  | [] => some []
  | (f, v) :: rest =>
    if f = "hash" then encodeFields rest
    else
      match encodeField v, encodeFields rest with
      | some b, some bs => some (b ++ bs)
      | _, _ => Option.none

end Security

namespace Message

/-- The thirteen message kinds of src/network/message.py.  Dataclass
field order puts the inherited `hash` field (authenticated kinds) first,
then the kind's own fields in declaration order. -/
inductive Msg where
  | accept (hash : String) (value : String) (proposal : Int)
  | accepted (hash : String) (value : String) (proposal : Int)
  | acknowledge
  | client
  | denied (reason : String)
  | found (hash : String) (value : String) (found : Bool)
  | learn (value : String)
  | prepare (hash : String) (proposal : Int)
  | promise (hash : String) (proposal : Int) (accepted : String) (previous : Option Int)
  | search (value : String) (recurse : Bool)
  | server (hash : String) (uid : Int)
  | write (value : String)
  | wrote (value : String)
deriving DecidableEq

open Security in
/-- dataclasses.asdict: field name / value pairs in declared order. -/
def asdict : Msg → List (String × Field)
  | .accept h v p => [("hash", .str h), ("value", .str v), ("proposal", .int p)]
  | .accepted h v p => [("hash", .str h), ("value", .str v), ("proposal", .int p)]
  | .acknowledge => []
  | .client => []
  | .denied r => [("reason", .str r)]
  | .found h v f => [("hash", .str h), ("value", .str v), ("found", .bool f)]
  | .learn v => [("value", .str v)]
  | .prepare h p => [("hash", .str h), ("proposal", .int p)]
  | .promise h p a prev =>
    [("hash", .str h), ("proposal", .int p), ("accepted", .str a),
     ("previous", match prev with | some n => .int n | Option.none => .none)]
  | .search v r => [("value", .str v), ("recurse", .bool r)]
  | .server h u => [("hash", .str h), ("uid", .int u)]
  | .write v => [("value", .str v)]
  | .wrote v => [("value", .str v)]

/-- Whether the kind subclasses the authenticated base (✱ kinds). -/
def isAuthenticated : Msg → Bool
  | .accept _ _ _ => true
  | .accepted _ _ _ => true
  | .found _ _ _ => true
  | .prepare _ _ => true
  | .promise _ _ _ _ => true
  | .server _ _ => true
  | _ => false

/-- Security.hash: the byte string fed to hashlib.sha256 — the encoded
secret followed by the encodings of the message's non-hash fields in
declared order.  None when a field encoding overflows. -/
def hashInput (secret : String) (m : Msg) : Option (List Nat) :=
  (Security.encodeFields (asdict m)).map
    (fun bs => Security.encodeStr secret ++ bs)

/-- The message's non-hash fields in declared order (the spec's phrase
for the values hashed in §4.2). -/
def nonHashFields (m : Msg) : List Security.Field :=
  (asdict m).filterMap
    (fun kv => if kv.1 = "hash" then Option.none else some kv.2)

/-- Concatenation of per-field encodings, failing if any field fails. -/
def seqEncode (f : Security.Field → Option (List Nat)) :
    List Security.Field → Option (List Nat)
  | [] => some []
  | v :: rest =>
    match f v, seqEncode f rest with
    | some b, some bs => some (b ++ bs)
    | _, _ => Option.none

/-- Modelled from the spec (§4.2): per-field encoding with int mapped to
its big-endian 16-byte unsigned encoding, str to UTF-8 bytes, bytes
as-is, null to empty (bool, a Python int, as 1/0). -/
def specEncode16 : Security.Field → Option (List Nat)
  | .none => some []
  | .int n => Security.intToBytes 16 n
  | .bool b => Security.intToBytes 16 (cond b 1 0)
  | .str s => some (Security.encodeStr s)
  | .bytes bs => some bs

/-- Per-field encoding as the spec words it but with the source's 8-byte
int width (the amended form of claim C6). -/
def specEncode8 : Security.Field → Option (List Nat)
  | .none => some []
  | .int n => Security.intToBytes 8 n
  | .bool b => Security.intToBytes 8 (cond b 1 0)
  | .str s => some (Security.encodeStr s)
  | .bytes bs => some bs

/-- Modelled from the spec: hash input as the secret followed by the
non-hash fields in declared order, ints 16 bytes wide. -/
def specHashInput16 (secret : String) (m : Msg) : Option (List Nat) :=
  (seqEncode specEncode16 (nonHashFields m)).map
    (fun bs => Security.encodeStr secret ++ bs)

/-- Hash input as the spec words it, with the source's 8-byte width. -/
def specHashInput8 (secret : String) (m : Msg) : Option (List Nat) :=
  (seqEncode specEncode8 (nonHashFields m)).map
    (fun bs => Security.encodeStr secret ++ bs)

end Message

namespace Handler

/-- Handler._proposal: big-endian 8 bytes of the millisecond clock
concatenated with the first 8 of the node uuid's 16 bytes, read back as
a big-endian integer.  int.to_bytes(8) fails if the clock value does
not fit 8 bytes. -/
def proposalNum (millis : Nat) (uidBytes : List Nat) : Option Nat :=
  (Security.intToBytes 8 (Int.ofNat millis)).map
    (fun now => Security.fromBytesBE (now ++ uidBytes.take 8))

/-- The _Accepted dataclass. -/
structure AcceptedE where
  value : String
  proposal : Int
deriving DecidableEq

/-- The _Accepting dataclass. -/
structure Accepting where
  value : String
  accepts : Nat
deriving DecidableEq

/-- The _Proposing dataclass. -/
structure Proposing where
  value : String
  proposal : Int
  promises : Nat
  maximum : Option Int
deriving DecidableEq

/-- The _Writing dataclass (writer uuid modelled as Nat). -/
structure Writing where
  value : String
  writer : Nat
deriving DecidableEq

/-- Protocol content of the messages a handler emits.  The hash field of
authenticated kinds is filled by the security layer on construction and
is modelled separately (Message.Msg / Security); here only the payload
fields the handler chooses matter. -/
inductive PMsg where
  | accept (value : String) (proposal : Int)
  | accepted (value : String) (proposal : Int)
  | denied (reason : String)
  | learn (value : String)
  | prepare (proposal : Int)
  | promise (proposal : Int) (accepted : String) (previous : Option Int)
  | found (value : String) (found : Bool)
  | wrote (value : String)
  | acknowledge
deriving DecidableEq

/-- An outbound effect: mediator.send(uid, m) or mediator.broadcast(m). -/
inductive Output where
  | send (target : Nat) (m : PMsg)
  | broadcast (m : PMsg)
deriving DecidableEq

/-- dict lookup (first matching key; the dict has unique keys). -/
def dictGet (d : List (Int × Accepting)) (p : Int) : Option Accepting :=
  match d with
  | [] => Option.none
  | (q, e) :: rest => if q = p then some e else dictGet rest p

/-- dict assignment: replace in place, or append when the key is new. -/
def dictSet (d : List (Int × Accepting)) (p : Int) (e : Accepting) :
    List (Int × Accepting) :=
  match d with
  | [] => [(p, e)]
  | (q, e') :: rest =>
    if q = p then (q, e) :: rest else (q, e') :: dictSet rest p e

/-- del dict[key]: remove the (unique) entry. -/
def dictDel (d : List (Int × Accepting)) (p : Int) : List (Int × Accepting) :=
  match d with
  | [] => []
  | (q, e') :: rest => if q = p then rest else (q, e') :: dictDel rest p

/-- Handler state (the fields of src/app/paxos.py Handler touched by the
Prepare / Promise / Accept / Accepted / Learn handlers; the _searching
table and the delay configuration play no part in them).  `proposer`
records whether a proposer task is running. -/
structure State where
  promised : Option Int
  accepted : Option AcceptedE
  proposing : Option Proposing
  accepting : List (Int × Accepting)
  writing : List Writing
  storage : Storage.State
  proposer : Bool
deriving DecidableEq

/-- Guard of _on_accept: promised is None or proposal >= promised. -/
def geOpt (proposal : Int) (promised : Option Int) : Bool :=
  match promised with
  | Option.none => true
  | some q => q ≤ proposal

/-- Guard of _on_prepare: promised is None or proposal > promised. -/
def gtOpt (proposal : Int) (promised : Option Int) : Bool :=
  match promised with
  | Option.none => true
  | some q => q < proposal

/-- Handler._on_accept. -/
def onAccept (s : State) (sender : Nat) (value : String) (proposal : Int) :
    State × List Output :=
  if geOpt proposal s.promised then
    ({ s with promised := some proposal,
              accepted := some ⟨value, proposal⟩ },
     [.broadcast (.accepted value proposal)])
  else
    (s, [.send sender (.denied "Already promised to a higher proposal")])

/-- Handler._on_prepare. -/
def onPrepare (s : State) (sender : Nat) (proposal : Int) :
    State × List Output :=
  if gtOpt proposal s.promised then
    let accepted := match s.accepted with
      | Option.none => ""
      | some a => a.value
    let previous := match s.accepted with
      | Option.none => Option.none
      | some a => some a.proposal
    ({ s with promised := some proposal },
     [.send sender (.promise proposal accepted previous)])
  else
    (s, [.send sender (.denied "Already promised to a higher proposal")])

/-- Condition under which _on_promise adopts the reported value:
previous is not None and (maximum is None or previous > maximum). -/
def adoptCond (previous maximum : Option Int) : Bool :=
  match previous with
  | Option.none => false
  | some prev =>
    match maximum with
    | Option.none => true
    | some m => m < prev

/-- Handler._on_promise.  Note: the source updates proposing.value in
the adoption branch but never assigns proposing.maximum. -/
def onPromise (majority : Nat) (s : State) (proposal : Int)
    (accepted : String) (previous : Option Int) : State × List Output :=
  match s.proposing with
  | Option.none => (s, [])
  | some pr =>
    if proposal ≠ pr.proposal then (s, [])
    else
      let pr1 := if adoptCond previous pr.maximum
        then { pr with value := accepted } else pr
      let pr2 := { pr1 with promises := pr1.promises + 1 }
      if majority ≤ pr2.promises then
        ({ s with proposing := Option.none, proposer := false },
         [.broadcast (.accept pr2.value proposal)])
      else
        ({ s with proposing := some pr2 }, [])

/-- Handler._on_accepted.  The third component carries the ValueError
raised on a value mismatch (mutations made before the raise persist). -/
def onAccepted (majority : Nat) (s : State) (value : String) (proposal : Int) :
    State × List Output × Option String :=
  let acc0 := match dictGet s.accepting proposal with
    | Option.none => dictSet s.accepting proposal ⟨value, 0⟩
    | some _ => s.accepting
  match dictGet acc0 proposal with
  | Option.none => (s, [], some "unreachable")
  | some entry =>
    if value ≠ entry.value then
      ({ s with accepting := dictDel acc0 proposal }, [],
       some "Duplicate proposal number")
    else
      let acc1 := dictSet acc0 proposal ⟨entry.value, entry.accepts + 1⟩
      if majority ≤ entry.accepts + 1 then
        ({ s with accepting := dictDel acc1 proposal },
         [.broadcast (.learn value)], Option.none)
      else
        ({ s with accepting := acc1 }, [], Option.none)

/-- The while loop of _on_learn: pop queue heads whose value is in
storage, sending Wrote to each popped writer, until the head is missing
from storage or the queue empties. -/
def drain (storage : Storage.State) : List Writing → List Writing × List Output
  | [] => ([], [])
  | w :: rest =>
    if Storage.contains storage w.value then
      let r := drain storage rest
      (r.1, .send w.writer (.wrote w.value) :: r.2)
    else (w :: rest, [])

/-- Handler._reset: clear the round state, cancel the proposer task, and
start a new one when a write is still queued. -/
def reset (s : State) : State :=
  let s1 := { s with promised := Option.none, accepted := Option.none,
                     proposing := Option.none, accepting := [],
                     proposer := false }
  if s1.writing.isEmpty then s1 else { s1 with proposer := true }

/-- Handler._on_learn. -/
def onLearn (s : State) (value : String) : State × List Output :=
  let storage1 := Storage.add s.storage value
  let r := drain storage1 s.writing
  (reset { s with storage := storage1, writing := r.1 }, r.2)

/-- A Prepare or Accept arrival (the events claim C3 quantifies over). -/
inductive Event where
  | prepare (sender : Nat) (proposal : Int)
  | accept (sender : Nat) (value : String) (proposal : Int)

/-- State reached after handling one Prepare/Accept event. -/
def stepPA (s : State) (e : Event) : State :=
  match e with
  | .prepare sender p => (onPrepare s sender p).1
  | .accept sender v p => (onAccept s sender v p).1

/-- State reached after handling a sequence of Prepare/Accept events. -/
def stepsPA (s : State) (es : List Event) : State :=
  es.foldl stepPA s

/-- Non-decrease of the promised field: once set it never goes back to
None and never decreases. -/
def promisedLE : Option Int → Option Int → Prop
  | Option.none, _ => True
  | some _, Option.none => False
  | some a, some b => a ≤ b

end Handler

namespace Message

/-!
The wire codec of src/network/message.py.  A message is framed as
struct.pack("!IB", len(payload), kind) followed by the payload
json.dumps(dataclasses.asdict(message)).encode().  json.dumps uses its
defaults: separators (", ", ": ") and ensure_ascii=True, so the payload
text is pure ASCII.  json.loads is modelled on the grammar these
payloads inhabit: a flat object whose values are strings, integers,
booleans or null (nested containers, floats and lone surrogates never
occur in an encoded message and parse to none here).
-/

/-- A JSON value appearing in a message payload (all payloads are flat
objects over these scalars). -/
inductive JVal where
  | jstr (s : String)
  | jint (n : Int)
  | jbool (b : Bool)
  | jnull
deriving DecidableEq

/-- Lowercase hex digit, as Python's '\x7b0:04x\x7d'.format emits. -/
def hexDigitChar : Nat → Char
  | 0 => '0' | 1 => '1' | 2 => '2' | 3 => '3'
  | 4 => '4' | 5 => '5' | 6 => '6' | 7 => '7'
  | 8 => '8' | 9 => '9' | 10 => 'a' | 11 => 'b'
  | 12 => 'c' | 13 => 'd' | 14 => 'e' | _ => 'f'

/-- Four hex digits of a value below 0x10000. -/
def hex4 (n : Nat) : List Char :=
  [hexDigitChar (n / 4096 % 16), hexDigitChar (n / 256 % 16),
   hexDigitChar (n / 16 % 16), hexDigitChar (n % 16)]

/-- json.dumps ensure_ascii escaping of one character: the ESCAPE_DCT
shortcuts, then plain printable ASCII, then the uXXXX forms (with a
surrogate pair above the basic plane). -/
def escapeChar (c : Char) : List Char :=
  if c = '\"' then ['\\', '\"']
  else if c = '\\' then ['\\', '\\']
  else if c = Char.ofNat 8 then ['\\', 'b']
  else if c = '\t' then ['\\', 't']
  else if c = '\n' then ['\\', 'n']
  else if c = Char.ofNat 12 then ['\\', 'f']
  else if c = Char.ofNat 13 then ['\\', 'r']
  else if 32 ≤ c.toNat ∧ c.toNat ≤ 126 then [c]
  else if c.toNat < 65536 then '\\' :: 'u' :: hex4 c.toNat
  else
    ('\\' :: 'u' :: hex4 (55296 + (c.toNat - 65536) / 1024)) ++
    ('\\' :: 'u' :: hex4 (56320 + (c.toNat - 65536) % 1024))

/-- JSON string literal of a Python string. -/
def serString (s : String) : List Char :=
  '\"' :: (s.data.map escapeChar).flatten ++ ['\"']

/-- Decimal digit character chr(48 + d). -/
def digitChar : Nat → Char
  | 0 => '0' | 1 => '1' | 2 => '2' | 3 => '3' | 4 => '4'
  | 5 => '5' | 6 => '6' | 7 => '7' | 8 => '8' | _ => '9'

/-- Decimal digits of n, most significant first (fuel-driven so that the
definition is structurally recursive; fuel > n always suffices). -/
def natToDigitsAux : Nat → Nat → List Char
  | 0, _ => []
  | fuel + 1, n =>
    if n < 10 then [digitChar n]
    else natToDigitsAux fuel (n / 10) ++ [digitChar (n % 10)]

/-- Decimal representation of a natural number. -/
def natToDec (n : Nat) : List Char :=
  natToDigitsAux (n + 1) n

/-- Python repr of an int, as json.dumps emits it. -/
def serInt (n : Int) : List Char :=
  if n < 0 then '-' :: natToDec (-n).toNat else natToDec n.toNat

/-- json.dumps of one scalar value. -/
def serVal : JVal → List Char
  | .jstr s => serString s
  | .jint n => serInt n
  | .jbool true => ['t', 'r', 'u', 'e']
  | .jbool false => ['f', 'a', 'l', 's', 'e']
  | .jnull => ['n', 'u', 'l', 'l']

/-- json.dumps of the members of a flat object, separated by ", ", each
key and value joined by ": ". -/
def serMembers : List (String × JVal) → List Char
  | [] => []
  | [(k, v)] => serString k ++ ':' :: ' ' :: serVal v
  | (k, v) :: rest =>
    serString k ++ ':' :: ' ' :: serVal v ++ ',' :: ' ' :: serMembers rest

/-- json.dumps of a flat object. -/
def serObj (ms : List (String × JVal)) : List Char :=
  Char.ofNat 123 :: serMembers ms ++ [Char.ofNat 125]

/-- JSON whitespace skipped by json.loads. -/
def isWsC (c : Char) : Bool :=
  c = ' ' || c = '\t' || c = '\n' || c = '\r'

/-- Skip leading JSON whitespace. -/
def skipWs (cs : List Char) : List Char :=
  cs.dropWhile isWsC

/-- Value of a hex digit (either case), as json.loads accepts. -/
def hexVal (c : Char) : Option Nat :=
  if 48 ≤ c.toNat ∧ c.toNat ≤ 57 then some (c.toNat - 48)
  else if 97 ≤ c.toNat ∧ c.toNat ≤ 102 then some (c.toNat - 87)
  else if 65 ≤ c.toNat ∧ c.toNat ≤ 70 then some (c.toNat - 55)
  else Option.none

/-- One-character JSON escape (the shortcuts json.loads accepts). -/
def unescape : Char → Option Char
  | '\"' => some '\"'
  | '\\' => some '\\'
  | '/' => some '/'
  | 'b' => some (Char.ofNat 8)
  | 'f' => some (Char.ofNat 12)
  | 'n' => some '\n'
  | 'r' => some '\r'
  | 't' => some '\t'
  | _ => Option.none

/-- Parse four hex digits into their value. -/
def parseU4 : List Char → Option (Nat × List Char)
  | h1 :: h2 :: h3 :: h4 :: rest =>
    match hexVal h1, hexVal h2, hexVal h3, hexVal h4 with
    | some a, some b, some c, some d =>
      some (4096 * a + 256 * b + 16 * c + d, rest)
    | _, _, _, _ => Option.none
  | _ => Option.none

/-- Parse the body of a JSON string literal after its opening quote,
returning the decoded characters and the input after the closing quote.
Surrogate escape pairs are combined into one scalar; a lone surrogate
escape (which Python would keep as a lone surrogate code unit, a value
no unicode scalar can carry) parses to none.  The fuel only drives the
recursion: every step consumes at least one input character, so any
fuel above the input length gives the parse's true result. -/
def parseStringBody : Nat → List Char → Option (List Char × List Char)
  | 0, _ => Option.none
  | _ + 1, [] => Option.none
  | fuel + 1, c :: rest =>
    if c = '\"' then some ([], rest)
    else if c = '\\' then
      match rest with
      | [] => Option.none
      | e :: rest2 =>
        if e = 'u' then
          match parseU4 rest2 with
          | some vr =>
            if 55296 ≤ vr.1 ∧ vr.1 ≤ 57343 then
              if vr.1 ≤ 56319 then
                match vr.2 with
                | b1 :: b2 :: rest3 =>
                  if b1 = '\\' then
                    if b2 = 'u' then
                      match parseU4 rest3 with
                      | some wr =>
                        if 56320 ≤ wr.1 ∧ wr.1 ≤ 57343 then
                          match parseStringBody fuel wr.2 with
                          | some r =>
                            some (Char.ofNat (65536 +
                              (vr.1 - 55296) * 1024 + (wr.1 - 56320)) ::
                              r.1, r.2)
                          | Option.none => Option.none
                        else Option.none
                      | Option.none => Option.none
                    else Option.none
                  else Option.none
                | _ => Option.none
              else Option.none
            else
              match parseStringBody fuel vr.2 with
              | some r => some (Char.ofNat vr.1 :: r.1, r.2)
              | Option.none => Option.none
          | Option.none => Option.none
        else
          match unescape e with
          | some u =>
            match parseStringBody fuel rest2 with
            | some r => some (u :: r.1, r.2)
            | Option.none => Option.none
          | Option.none => Option.none
    else
      match parseStringBody fuel rest with
      | some r => some (c :: r.1, r.2)
      | Option.none => Option.none

/-- Parse a JSON string body with enough fuel for its whole input. -/
def parseString (cs : List Char) : Option (List Char × List Char) :=
  parseStringBody (cs.length + 1) cs

/-- Whether a character is a decimal digit. -/
def isDigitC (c : Char) : Bool :=
  decide (48 ≤ c.toNat ∧ c.toNat ≤ 57)

/-- Consume a maximal run of decimal digits into an accumulator. -/
def parseDigitsAux (acc : Nat) : List Char → Nat × List Char
  | [] => (acc, [])
  | c :: rest =>
    if isDigitC c then parseDigitsAux (10 * acc + (c.toNat - 48)) rest
    else (acc, c :: rest)

/-- Parse a JSON integer (optional minus sign then digits). -/
def parseInt : List Char → Option (Int × List Char)
  | [] => Option.none
  | c :: rest =>
    if c = '-' then
      match rest with
      | d :: _ =>
        if isDigitC d then
          some (-(Int.ofNat (parseDigitsAux 0 rest).1),
            (parseDigitsAux 0 rest).2)
        else Option.none
      | [] => Option.none
    else if isDigitC c then
      some (Int.ofNat (parseDigitsAux 0 (c :: rest)).1,
        (parseDigitsAux 0 (c :: rest)).2)
    else Option.none

/-- Parse one scalar JSON value. -/
def parseVal : List Char → Option (JVal × List Char)
  | [] => Option.none
  | c :: rest =>
    if c = '\"' then
      match parseString rest with
      | some r => some (.jstr (String.mk r.1), r.2)
      | Option.none => Option.none
    else if c = 't' then
      match rest with
      | 'r' :: 'u' :: 'e' :: rest2 => some (.jbool true, rest2)
      | _ => Option.none
    else if c = 'f' then
      match rest with
      | 'a' :: 'l' :: 's' :: 'e' :: rest2 => some (.jbool false, rest2)
      | _ => Option.none
    else if c = 'n' then
      match rest with
      | 'u' :: 'l' :: 'l' :: rest2 => some (.jnull, rest2)
      | _ => Option.none
    else
      match parseInt (c :: rest) with
      | some r => some (.jint r.1, r.2)
      | Option.none => Option.none

/-- All characters are decimal digits (used to reason about the maximal
digit run parseDigitsAux consumes). -/
def allDigits (l : List Char) : Prop :=
  ∀ c ∈ l, 48 ≤ c.toNat ∧ c.toNat ≤ 57

/-- The input does not begin with a decimal digit (so a digit run ends
there). -/
def nonDigitStart : List Char → Prop
  | [] => True
  | c :: _ => ¬(48 ≤ c.toNat ∧ c.toNat ≤ 57)

/-- Value of a digit run appended to an accumulator. -/
def digitsValFrom (acc : Nat) (l : List Char) : Nat :=
  l.foldl (fun a c => 10 * a + (c.toNat - 48)) acc

/-- Parse the members of a non-empty flat object: key string, colon,
value, then a comma and further members or the closing brace.  The fuel
bounds the number of members; any fuel above it behaves identically. -/
def parseMembersAux : Nat → List Char → Option (List (String × JVal) × List Char)
  | 0, _ => Option.none
  | fuel + 1, cs =>
    match skipWs cs with
    | [] => Option.none
    | c :: rest =>
      if c = '\"' then
        match parseString rest with
        | some kr =>
          match skipWs kr.2 with
          | [] => Option.none
          | c2 :: rest2 =>
            if c2 = ':' then
              match parseVal (skipWs rest2) with
              | some vr =>
                match skipWs vr.2 with
                | [] => Option.none
                | c3 :: rest3 =>
                  if c3 = ',' then
                    match parseMembersAux fuel rest3 with
                    | some mr => some ((String.mk kr.1, vr.1) :: mr.1, mr.2)
                    | Option.none => Option.none
                  else if c3 = Char.ofNat 125 then
                    some ([(String.mk kr.1, vr.1)], rest3)
                  else Option.none
              | Option.none => Option.none
            else Option.none
        | Option.none => Option.none
      else Option.none

/-- Parse a flat JSON object, returning the members and the rest of the
input. -/
def parseObj (cs : List Char) : Option (List (String × JVal) × List Char) :=
  match skipWs cs with
  | c :: rest =>
    if c = Char.ofNat 123 then
      match skipWs rest with
      | d :: rest2 =>
        if d = Char.ofNat 125 then some ([], rest2)
        else parseMembersAux (rest.length + 1) rest
      | [] => Option.none
    else Option.none
  | [] => Option.none

/-- Decode payload bytes to text.  Encoded payloads are pure ASCII
(ensure_ascii), so the UTF-8 decoding json.loads applies is the
identity on byte values below 128. -/
def asciiDecode : List Nat → Option (List Char)
  | [] => some []
  | b :: rest =>
    if b < 128 then
      match asciiDecode rest with
      | some cs => some (Char.ofNat b :: cs)
      | Option.none => Option.none
    else Option.none

/-- json.loads of a payload: decode the bytes, parse one object and
require only whitespace to follow. -/
def jsonLoads (payload : List Nat) : Option (List (String × JVal)) :=
  match asciiDecode payload with
  | some text =>
    match parseObj text with
    | some r => if (skipWs r.2).isEmpty then some r.1 else Option.none
    | Option.none => Option.none
  | Option.none => Option.none

/-- dataclasses.asdict of a message as the JSON object json.dumps
serializes (field order as declared; None becomes null). -/
def toJson : Msg → List (String × JVal)
  | .accept h v p =>
    [("hash", .jstr h), ("value", .jstr v), ("proposal", .jint p)]
  | .accepted h v p =>
    [("hash", .jstr h), ("value", .jstr v), ("proposal", .jint p)]
  | .acknowledge => []
  | .client => []
  | .denied r => [("reason", .jstr r)]
  | .found h v f =>
    [("hash", .jstr h), ("value", .jstr v), ("found", .jbool f)]
  | .learn v => [("value", .jstr v)]
  | .prepare h p => [("hash", .jstr h), ("proposal", .jint p)]
  | .promise h p a prev =>
    [("hash", .jstr h), ("proposal", .jint p), ("accepted", .jstr a),
     ("previous", match prev with | some n => .jint n | Option.none => .jnull)]
  | .search v r => [("value", .jstr v), ("recurse", .jbool r)]
  | .server h u => [("hash", .jstr h), ("uid", .jint u)]
  | .write v => [("value", .jstr v)]
  | .wrote v => [("value", .jstr v)]

/-- The Type enum value of a kind (enum.auto starting at 1, in
declaration order). -/
def kindCode : Msg → Nat
  | .accept _ _ _ => 1
  | .accepted _ _ _ => 2
  | .acknowledge => 3
  | .client => 4
  | .denied _ => 5
  | .found _ _ _ => 6
  | .learn _ => 7
  | .prepare _ _ => 8
  | .promise _ _ _ _ => 9
  | .search _ _ => 10
  | .server _ _ => 11
  | .write _ => 12
  | .wrote _ => 13

/-- Header.encode: struct.pack("!IB", length, kind); struct raises when
the length does not fit an unsigned 32-bit field. -/
def headerEncode (length kind : Nat) : Option (List Nat) :=
  if length < 4294967296 ∧ kind < 256 then
    some (Security.toBytesBE 4 length ++ [kind])
  else Option.none

/-- Header.decode: exactly five bytes, big-endian u32 length then the
kind byte, which Type(type) requires to be one of the thirteen values. -/
def headerDecode (bs : List Nat) : Option (Nat × Nat) :=
  match bs with
  | [b0, b1, b2, b3, k] =>
    if 1 ≤ k ∧ k ≤ 13 then
      some (Security.fromBytesBE [b0, b1, b2, b3], k)
    else Option.none
  | _ => Option.none

/-- Dictionary lookup in a parsed JSON object. -/
def jlookup (obj : List (String × JVal)) (k : String) : Option JVal :=
  match obj with
  | [] => Option.none
  | (k', v) :: rest => if k' = k then some v else jlookup rest k

/-- Reconstruction Type(type).to_type()(**json.loads(payload)): the
kind's dataclass applied to the decoded fields.  Field presence is
checked (missing or extra keywords raise TypeError); a field whose JSON
value has the wrong shape for the model's typed message is none here
(Python dataclasses would accept it untyped — unreachable from
encoded messages). -/
def fromJson (kind : Nat) (obj : List (String × JVal)) : Option Msg :=
  if kind = 1 then
    match jlookup obj "hash", jlookup obj "value", jlookup obj "proposal" with
    | some (.jstr h), some (.jstr v), some (.jint p) =>
      if obj.length = 3 then some (.accept h v p) else Option.none
    | _, _, _ => Option.none
  else if kind = 2 then
    match jlookup obj "hash", jlookup obj "value", jlookup obj "proposal" with
    | some (.jstr h), some (.jstr v), some (.jint p) =>
      if obj.length = 3 then some (.accepted h v p) else Option.none
    | _, _, _ => Option.none
  else if kind = 3 then
    if obj.length = 0 then some .acknowledge else Option.none
  else if kind = 4 then
    if obj.length = 0 then some .client else Option.none
  else if kind = 5 then
    match jlookup obj "reason" with
    | some (.jstr r) =>
      if obj.length = 1 then some (.denied r) else Option.none
    | _ => Option.none
  else if kind = 6 then
    match jlookup obj "hash", jlookup obj "value", jlookup obj "found" with
    | some (.jstr h), some (.jstr v), some (.jbool f) =>
      if obj.length = 3 then some (.found h v f) else Option.none
    | _, _, _ => Option.none
  else if kind = 7 then
    match jlookup obj "value" with
    | some (.jstr v) =>
      if obj.length = 1 then some (.learn v) else Option.none
    | _ => Option.none
  else if kind = 8 then
    match jlookup obj "hash", jlookup obj "proposal" with
    | some (.jstr h), some (.jint p) =>
      if obj.length = 2 then some (.prepare h p) else Option.none
    | _, _ => Option.none
  else if kind = 9 then
    match jlookup obj "hash", jlookup obj "proposal",
        jlookup obj "accepted", jlookup obj "previous" with
    | some (.jstr h), some (.jint p), some (.jstr a), some prev =>
      match prev with
      | .jint n =>
        if obj.length = 4 then some (.promise h p a (some n)) else Option.none
      | .jnull =>
        if obj.length = 4 then some (.promise h p a Option.none)
        else Option.none
      | _ => Option.none
    | _, _, _, _ => Option.none
  else if kind = 10 then
    match jlookup obj "value", jlookup obj "recurse" with
    | some (.jstr v), some (.jbool r) =>
      if obj.length = 2 then some (.search v r) else Option.none
    | _, _ => Option.none
  else if kind = 11 then
    match jlookup obj "hash", jlookup obj "uid" with
    | some (.jstr h), some (.jint u) =>
      if obj.length = 2 then some (.server h u) else Option.none
    | _, _ => Option.none
  else if kind = 12 then
    match jlookup obj "value" with
    | some (.jstr v) =>
      if obj.length = 1 then some (.write v) else Option.none
    | _ => Option.none
  else if kind = 13 then
    match jlookup obj "value" with
    | some (.jstr v) =>
      if obj.length = 1 then some (.wrote v) else Option.none
    | _ => Option.none
  else Option.none

/-- message.encode: JSON payload prefixed by the packed header. -/
def encode (m : Msg) : Option (List Nat) :=
  match headerEncode ((serObj (toJson m)).map Char.toNat).length
      (kindCode m) with
  | some hdr => some (hdr ++ (serObj (toJson m)).map Char.toNat)
  | Option.none => Option.none

/-- message.decode: check the payload length against the header, run
json.loads and construct the message of the header's kind. -/
def decode (hdr : Nat × Nat) (payload : List Nat) : Option Msg :=
  if payload.length = hdr.1 then
    match jsonLoads payload with
    | some obj => fromJson hdr.2 obj
    | Option.none => Option.none
  else Option.none

end Message

/-! ## Theorems -/

section StorageTheorems

open Storage

theorem splitLinesAux_newline_mem (cs : List Char) :
    ∀ acc, cs.getLast? = some '\n' →
    ∀ l ∈ splitLinesAux acc cs, '\n' ∈ l := by
  induction cs with
  | nil => intro acc h; simp at h
  | cons c rest ih =>
    intro acc h l hl
    by_cases hc : c = '\n'
    · subst hc
      have heq : splitLinesAux acc ('\n' :: rest) =
          (acc.reverse ++ ['\n']) :: splitLinesAux [] rest := by
        simp [splitLinesAux]
      rw [heq] at hl
      rcases List.mem_cons.1 hl with h1 | h2
      · subst h1; simp
      · cases rest with
        | nil => simp [splitLinesAux] at h2
        | cons d ds =>
          exact ih [] (by simpa [List.getLast?_cons_cons] using h) l h2
    · have heq : splitLinesAux acc (c :: rest) =
          splitLinesAux (c :: acc) rest := by
        simp [splitLinesAux, hc]
      rw [heq] at hl
      cases rest with
      | nil =>
        simp [List.getLast?] at h
        exact absurd h hc
      | cons d ds =>
        exact ih (c :: acc) (by simpa [List.getLast?_cons_cons] using h) l hl

/-- Claim C10: a Storage constructed over an existing non-empty backing
file (such files end in a newline, since add only ever appends
"value\n") seeds its in-memory set with full lines, newline included;
hence contains(v) is false for every newline-free v right after
construction. -/
theorem claim_C10 (content : String) (hne : content ≠ "")
    (hnl : content.data.getLast? = some '\n') :
    (∀ l ∈ (Storage.init content).values, '\n' ∈ l.data) ∧
    (∀ v : String, '\n' ∉ v.data →
      Storage.contains (Storage.init content) v = false) := by
  have hmem : ∀ l ∈ (Storage.init content).values, '\n' ∈ l.data := by
    intro l hl
    simp only [Storage.init, pythonLines, List.mem_map] at hl
    obtain ⟨cl, hcl, rfl⟩ := hl
    exact splitLinesAux_newline_mem content.data [] hnl cl hcl
  refine ⟨hmem, ?_⟩
  intro v hv
  rw [Bool.eq_false_iff]
  intro hcon
  have hvmem : v ∈ (Storage.init content).values := by
    simpa [Storage.contains] using hcon
  exact hv (hmem v hvmem)

theorem claim_C10_witness :
    ("value\n" : String) ≠ "" ∧
    Storage.contains (Storage.init "value\n") "value" = false :=
  ⟨by decide,
   (claim_C10 "value\n" (by decide) (by decide)).2 "value" (by decide)⟩

/-- Claim C7: Storage.add on an absent value appends the literal text
"value\n" to the file (regardless of the argument) and records the
argument in the in-memory set; on a present value it changes nothing. -/
theorem claim_C7 (s : Storage.State) (v : String) :
    (s.values.contains v = false →
      Storage.add s v =
        { file := s.file ++ "value\n", values := s.values ++ [v] } ∧
      Storage.contains (Storage.add s v) v = true) ∧
    (s.values.contains v = true → Storage.add s v = s) := by
  constructor
  · intro h
    have hadd : Storage.add s v =
        { file := s.file ++ "value\n", values := s.values ++ [v] } := by
      simp only [Storage.add, h, Bool.false_eq_true, if_false]
    refine ⟨hadd, ?_⟩
    rw [hadd]
    simp [Storage.contains]
  · intro h
    simp only [Storage.add, h, if_true]

theorem claim_C7_witness :
    Storage.add ⟨"", []⟩ "x" = ⟨"value\n", ["x"]⟩ ∧
    Storage.contains (Storage.add ⟨"", []⟩ "x") "x" = true :=
  (claim_C7 ⟨"", []⟩ "x").1 (by decide)

end StorageTheorems

section HandlerTheorems

open Handler

/-- Claim C2: the Accept handler accepts exactly when promised is unset
or the proposal is at least it, then records the promise and the
accepted pair and broadcasts Accepted; otherwise it leaves the state
unchanged and sends Denied to the sender. -/
theorem claim_C2 (s : Handler.State) (sender : Nat) (v : String) (p : Int) :
    ((s.promised = Option.none ∨ ∃ q, s.promised = some q ∧ q ≤ p) →
      (onAccept s sender v p).1.promised = some p ∧
      (onAccept s sender v p).1.accepted = some ⟨v, p⟩ ∧
      (onAccept s sender v p).2 = [.broadcast (.accepted v p)]) ∧
    ((∃ q, s.promised = some q ∧ p < q) →
      (onAccept s sender v p).1 = s ∧
      (onAccept s sender v p).2 =
        [.send sender (.denied "Already promised to a higher proposal")]) := by
  constructor
  · intro h
    have hg : geOpt p s.promised = true := by
      rcases h with h | ⟨q, hq, hle⟩
      · simp [geOpt, h]
      · simp [geOpt, hq, hle]
    simp [onAccept, hg]
  · rintro ⟨q, hq, hlt⟩
    have hg : geOpt p s.promised = false := by
      simp [geOpt, hq]
      omega
    simp [onAccept, hg]

theorem claim_C2_witness :
    (onAccept ⟨Option.none, Option.none, Option.none, [], [], ⟨"", []⟩, false⟩
        3 "a" 9).1.promised = some 9 ∧
    (onAccept ⟨Option.none, Option.none, Option.none, [], [], ⟨"", []⟩, false⟩
        3 "a" 9).1.accepted = some ⟨"a", 9⟩ ∧
    (onAccept ⟨Option.none, Option.none, Option.none, [], [], ⟨"", []⟩, false⟩
        3 "a" 9).2 = [.broadcast (.accepted "a" 9)] :=
  (claim_C2 _ 3 "a" 9).1 (Or.inl rfl)

theorem promisedLE_refl (a : Option Int) : promisedLE a a := by
  cases a <;> simp [promisedLE]

theorem promisedLE_trans {a b c : Option Int} :
    promisedLE a b → promisedLE b c → promisedLE a c := by
  cases a <;> cases b <;> cases c <;> simp [promisedLE] <;> omega

theorem promised_stepPA (s : Handler.State) (e : Event) :
    promisedLE s.promised (stepPA s e).promised := by
  cases e with
  | prepare sender p =>
    by_cases hg : gtOpt p s.promised
    · have : (stepPA s (.prepare sender p)).promised = some p := by
        simp [stepPA, onPrepare, hg]
      rw [this]
      cases hs : s.promised with
      | none => simp [promisedLE]
      | some q =>
        rw [hs] at hg
        simp [gtOpt] at hg
        simp [promisedLE]
        omega
    · have : (stepPA s (.prepare sender p)).promised = s.promised := by
        simp [stepPA, onPrepare, hg]
      rw [this]
      exact promisedLE_refl _
  | accept sender v p =>
    by_cases hg : geOpt p s.promised
    · have : (stepPA s (.accept sender v p)).promised = some p := by
        simp [stepPA, onAccept, hg]
      rw [this]
      cases hs : s.promised with
      | none => simp [promisedLE]
      | some q =>
        rw [hs] at hg
        simp [geOpt] at hg
        simp [promisedLE]
        omega
    · have : (stepPA s (.accept sender v p)).promised = s.promised := by
        simp [stepPA, onAccept, hg]
      rw [this]
      exact promisedLE_refl _

/-- Claim C3: along any sequence of Prepare/Accept arrivals (no Learn,
hence no reset) promised never decreases; a Prepare step either leaves
it unchanged or installs a proposal strictly above the previous value,
and an Accept step one at least the previous value. -/
theorem claim_C3 (s : Handler.State) (es : List Event) :
    promisedLE s.promised (stepsPA s es).promised ∧
    (∀ sender p, (onPrepare s sender p).1.promised = s.promised ∨
      ((onPrepare s sender p).1.promised = some p ∧
        ∀ q, s.promised = some q → q < p)) ∧
    (∀ sender v p, (onAccept s sender v p).1.promised = s.promised ∨
      ((onAccept s sender v p).1.promised = some p ∧
        ∀ q, s.promised = some q → q ≤ p)) := by
  refine ⟨?_, ?_, ?_⟩
  · induction es generalizing s with
    | nil => exact promisedLE_refl _
    | cons e rest ih =>
      exact promisedLE_trans (promised_stepPA s e) (ih (stepPA s e))
  · intro sender p
    by_cases hg : gtOpt p s.promised
    · refine Or.inr ⟨by simp [onPrepare, hg], ?_⟩
      intro q hq
      rw [hq] at hg
      simpa [gtOpt] using hg
    · exact Or.inl (by simp [onPrepare, hg])
  · intro sender v p
    by_cases hg : geOpt p s.promised
    · refine Or.inr ⟨by simp [onAccept, hg], ?_⟩
      intro q hq
      rw [hq] at hg
      simpa [geOpt] using hg
    · exact Or.inl (by simp [onAccept, hg])

theorem claim_C3_witness :
    promisedLE (some 1)
      (stepsPA ⟨some 1, Option.none, Option.none, [], [], ⟨"", []⟩, false⟩
        [.prepare 0 4, .accept 0 "a" 4, .prepare 1 2]).promised :=
  (claim_C3 ⟨some 1, Option.none, Option.none, [], [], ⟨"", []⟩, false⟩
    [.prepare 0 4, .accept 0 "a" 4, .prepare 1 2]).1

end HandlerTheorems

section HandlerTheorems2

open Handler

theorem dictGet_dictSet_self (d : List (Int × Accepting)) (p : Int)
    (e : Accepting) : dictGet (dictSet d p e) p = some e := by
  induction d with
  | nil => simp [dictGet, dictSet]
  | cons kv rest ih =>
    obtain ⟨q, e'⟩ := kv
    by_cases hq : q = p
    · simp [dictGet, dictSet, hq]
    · simp [dictGet, dictSet, hq, ih]

theorem dictDel_dictSet (d : List (Int × Accepting)) (p : Int)
    (e : Accepting) : dictDel (dictSet d p e) p = dictDel d p := by
  induction d with
  | nil => simp [dictDel, dictSet]
  | cons kv rest ih =>
    obtain ⟨q, e'⟩ := kv
    by_cases hq : q = p
    · simp [dictDel, dictSet, hq]
    · simp [dictDel, dictSet, hq, ih]

theorem dictSet_dictSet (d : List (Int × Accepting)) (p : Int)
    (e e' : Accepting) : dictSet (dictSet d p e) p e' = dictSet d p e' := by
  induction d with
  | nil => simp [dictSet]
  | cons kv rest ih =>
    obtain ⟨q, f⟩ := kv
    by_cases hq : q = p
    · simp [dictSet, hq]
    · simp [dictSet, hq, ih]

theorem dictDel_of_absent (d : List (Int × Accepting)) (p : Int)
    (h : dictGet d p = Option.none) : dictDel d p = d := by
  induction d with
  | nil => simp [dictDel]
  | cons kv rest ih =>
    obtain ⟨q, e'⟩ := kv
    by_cases hq : q = p
    · rw [dictGet, if_pos hq] at h
      exact absurd h (by simp)
    · rw [dictGet, if_neg hq] at h
      rw [dictDel, if_neg hq, ih h]

/-- Claim C4: an Accepted(v, p) against an existing entry with a
different value deletes the entry and raises, with no other change; an
agreeing (or fresh) arrival increments the count (a fresh entry starts
at 0), and the entry is deleted with a single Learn broadcast exactly
when the incremented count reaches the majority. -/
theorem claim_C4 (majority : Nat) (s : Handler.State) (v : String)
    (p : Int) :
    (∀ e, dictGet s.accepting p = some e → e.value ≠ v →
      onAccepted majority s v p =
        ({ s with accepting := dictDel s.accepting p }, [],
         some "Duplicate proposal number")) ∧
    (∀ e, dictGet s.accepting p = some e → e.value = v →
      onAccepted majority s v p =
        (if majority ≤ e.accepts + 1 then
          ({ s with accepting := dictDel s.accepting p },
           [.broadcast (.learn v)], Option.none)
         else
          ({ s with accepting := dictSet s.accepting p ⟨v, e.accepts + 1⟩ },
           [], Option.none))) ∧
    (dictGet s.accepting p = Option.none →
      onAccepted majority s v p =
        (if majority ≤ 1 then
          (s, [.broadcast (.learn v)], Option.none)
         else
          ({ s with accepting := dictSet s.accepting p ⟨v, 1⟩ },
           [], Option.none))) := by
  refine ⟨?_, ?_, ?_⟩
  · intro e he hne
    rw [onAccepted]
    simp only [he]
    rw [if_pos (Ne.symm hne)]
  · intro e he hv
    rw [onAccepted]
    simp only [he]
    rw [if_neg (by simp [hv])]
    rw [dictDel_dictSet, hv]
  · intro he
    rw [onAccepted]
    simp only [he]
    rw [dictGet_dictSet_self]
    dsimp only
    rw [if_neg (fun hcon => hcon rfl)]
    rw [dictSet_dictSet, dictDel_dictSet, dictDel_of_absent s.accepting p he]

theorem claim_C4_witness :
    onAccepted 2 ⟨Option.none, Option.none, Option.none, [(7, ⟨"a", 1⟩)],
        [], ⟨"", []⟩, false⟩ "a" 7 =
      (⟨Option.none, Option.none, Option.none, [], [], ⟨"", []⟩, false⟩,
       [.broadcast (.learn "a")], Option.none) := by
  have h := (claim_C4 2 ⟨Option.none, Option.none, Option.none,
    [(7, ⟨"a", 1⟩)], [], ⟨"", []⟩, false⟩ "a" 7).2.1 ⟨"a", 1⟩ (by decide) rfl
  rw [h]
  decide

end HandlerTheorems2

section HandlerTheorems3

open Handler

theorem contains_add_self (st : Storage.State) (v : String) :
    Storage.contains (Storage.add st v) v = true := by
  by_cases h : st.values.contains v
  · have heq : Storage.add st v = st := by
      simp only [Storage.add, h, if_true]
    rw [heq]
    exact h
  · have heq : Storage.add st v =
        ⟨st.file ++ "value\n", st.values ++ [v]⟩ := by
      simp only [Storage.add, h, Bool.false_eq_true, if_false]
    rw [heq]
    simp [Storage.contains]

theorem drain_eq (st : Storage.State) (ws : List Writing) :
    drain st ws =
      (ws.dropWhile (fun w => Storage.contains st w.value),
       (ws.takeWhile (fun w => Storage.contains st w.value)).map
         (fun w => Output.send w.writer (.wrote w.value))) := by
  induction ws with
  | nil => simp [drain]
  | cons w rest ih =>
    by_cases h : Storage.contains st w.value
    · simp [drain, h, ih, List.dropWhile_cons, List.takeWhile_cons]
    · simp [drain, h, List.dropWhile_cons, List.takeWhile_cons]

/-- Claim C5: after Learn(v) the value is in storage, each queue head
whose value is now covered by storage is popped in FIFO order with a
Wrote sent to its writer, and the round state is reset (promised,
accepted, proposing cleared; Accepting emptied). -/
theorem claim_C5 (s : Handler.State) (v : String) :
    Storage.contains (onLearn s v).1.storage v = true ∧
    (onLearn s v).1.promised = Option.none ∧
    (onLearn s v).1.accepted = Option.none ∧
    (onLearn s v).1.proposing = Option.none ∧
    (onLearn s v).1.accepting = [] ∧
    (onLearn s v).2 =
      (s.writing.takeWhile
        (fun w => Storage.contains (Storage.add s.storage v) w.value)).map
        (fun w => Output.send w.writer (.wrote w.value)) ∧
    (onLearn s v).1.writing =
      s.writing.dropWhile
        (fun w => Storage.contains (Storage.add s.storage v) w.value) := by
  have h1 : (onLearn s v).1.storage = Storage.add s.storage v := by
    rw [onLearn, drain_eq, reset]
    dsimp only
    split <;> rfl
  refine ⟨?_, ?_, ?_, ?_, ?_, ?_, ?_⟩
  · rw [h1]; exact contains_add_self s.storage v
  · rw [onLearn, drain_eq, reset]; dsimp only; split <;> rfl
  · rw [onLearn, drain_eq, reset]; dsimp only; split <;> rfl
  · rw [onLearn, drain_eq, reset]; dsimp only; split <;> rfl
  · rw [onLearn, drain_eq, reset]; dsimp only; split <;> rfl
  · rw [onLearn, drain_eq]
  · rw [onLearn, drain_eq, reset]; dsimp only; split <;> rfl

/-- Claim C1 (code evaluation): at a state whose open proposing round
has maximum = None, a Promise for the round's proposal reporting a
previously accepted pair (previous = 5) makes the handler adopt the
reported value but leave proposing.maximum at None — the source never
assigns proposing.maximum, so the claimed update to it does not occur. -/
theorem claim_C1_code :
    (onPromise 5 ⟨Option.none, Option.none,
        some ⟨"x", 7, 0, Option.none⟩, [], [], ⟨"", []⟩, true⟩
      7 "y" (some 5)).1.proposing = some ⟨"y", 7, 1, Option.none⟩ := by
  decide

end HandlerTheorems3

section SecurityTheorems

open Message

/-- Claim C6 counterexample: for Prepare with proposal 1 under secret
"s", the byte string the source hashes over (8-byte int encoding) is
not the one the claim describes (16-byte int encoding). -/
theorem claim_C6_cex :
    hashInput "s" (Msg.prepare "" 1) ≠ specHashInput16 "s" (Msg.prepare "" 1) := by
  decide

/-- Claim C6 amended: the authentication hash is computed over the
secret followed by the message's non-hash fields in declared order,
every integer field encoded as its big-endian 8-byte unsigned encoding
(strings as UTF-8 bytes, null as empty). -/
theorem claim_C6_amended (secret : String) (m : Msg)
    (hauth : isAuthenticated m = true) :
    hashInput secret m = specHashInput8 secret m := by
  have hfields : Security.encodeFields (asdict m) =
      seqEncode specEncode8 (nonHashFields m) := by
    cases m with
    | accept h v p => cases Security.intToBytes 8 p <;> rfl
    | accepted h v p => cases Security.intToBytes 8 p <;> rfl
    | acknowledge => rfl
    | client => rfl
    | denied r => rfl
    | found h v f => cases f <;> rfl
    | learn v => rfl
    | prepare h p => cases Security.intToBytes 8 p <;> rfl
    | promise h p a prev =>
      cases prev with
      | none => cases Security.intToBytes 8 p <;> rfl
      | some q =>
        cases Security.intToBytes 8 p <;> cases Security.intToBytes 8 q <;> rfl
    | search v r => cases r <;> rfl
    | server h u => cases Security.intToBytes 8 u <;> rfl
    | write v => rfl
    | wrote v => rfl
  rw [hashInput, specHashInput8, hfields]

theorem claim_C6_amended_witness :
    hashInput "s" (Msg.prepare "" 1) = specHashInput8 "s" (Msg.prepare "" 1) :=
  claim_C6_amended "s" (Msg.prepare "" 1) rfl

theorem fromBytesBE_append (a b : List Nat) :
    Security.fromBytesBE (a ++ b) =
      Security.fromBytesBE a * 256 ^ b.length + Security.fromBytesBE b := by
  have key : ∀ (l : List Nat) (init : Nat),
      l.foldl (fun x y => 256 * x + y) init =
        init * 256 ^ l.length + l.foldl (fun x y => 256 * x + y) 0 := by
    intro l
    induction l with
    | nil => intro init; simp
    | cons y xs ih =>
      intro init
      simp only [List.foldl_cons, List.length_cons]
      rw [ih (256 * init + y), ih (256 * 0 + y)]
      ring
  rw [Security.fromBytesBE, List.foldl_append]
  rw [key b (List.foldl (fun x y => 256 * x + y) 0 a)]
  rfl

theorem fromBytesBE_toBytesBE (len n : Nat) (h : n < 256 ^ len) :
    Security.fromBytesBE (Security.toBytesBE len n) = n := by
  induction len generalizing n with
  | zero =>
    simp at h
    simp [Security.toBytesBE, Security.fromBytesBE, h]
  | succ k ih =>
    rw [Security.toBytesBE, fromBytesBE_append]
    have hdiv : n / 256 < 256 ^ k := by
      rw [Nat.div_lt_iff_lt_mul (by norm_num)]
      calc n < 256 ^ (k + 1) := h
        _ = 256 ^ k * 256 := by ring
    rw [ih _ hdiv]
    have hone : Security.fromBytesBE [n % 256] = n % 256 := by
      simp [Security.fromBytesBE]
    rw [hone]
    simp only [List.length_singleton, pow_one]
    omega

theorem hashInput_prepare_overflow (secret h : String) (n : Int)
    (hn : Security.intToBytes 8 n = Option.none) :
    hashInput secret (Msg.prepare h n) = Option.none := by
  have henc : Security.encodeFields (asdict (Msg.prepare h n)) =
      Option.none := by
    have hstuck : Security.encodeFields (asdict (Msg.prepare h n)) =
        match Security.intToBytes 8 n,
            (some [] : Option (List Nat)) with
        | some b, some bs => some (b ++ bs)
        | _, _ => Option.none := rfl
    rw [hstuck, hn]
  rw [hashInput, henc]
  rfl

/-- Claim C9: every proposal number generated from a positive
millisecond clock is at least 2^64 (the clock occupies the high 8
bytes), while Security._encode packs ints into exactly 8 bytes, so
hashing any Prepare that carries such a proposal fails with an
overflow instead of producing a hash. -/
theorem claim_C9 (millis : Nat) (uid : List Nat) (secret h : String)
    (h1 : 1 ≤ millis) (h2 : millis < 2 ^ 64) (h3 : uid.length = 16) :
    ∃ p : Nat, Handler.proposalNum millis uid = some p ∧ 2 ^ 64 ≤ p ∧
      hashInput secret (Msg.prepare h (Int.ofNat p)) = Option.none := by
  have h2' : millis < 256 ^ 8 := by
    calc millis < 2 ^ 64 := h2
      _ = 256 ^ 8 := by norm_num
  have henc : Security.intToBytes 8 (Int.ofNat millis) =
      some (Security.toBytesBE 8 millis) := by
    rw [Security.intToBytes, if_pos]
    · rfl
    · refine ⟨Int.ofNat_nonneg millis, ?_⟩
      show (millis : Int) < (256 : Int) ^ 8
      exact_mod_cast h2'
  have hlen : (uid.take 8).length = 8 := by
    rw [List.length_take, h3]
    decide
  have hval : Security.fromBytesBE (Security.toBytesBE 8 millis ++ uid.take 8) =
      millis * 256 ^ 8 + Security.fromBytesBE (uid.take 8) := by
    rw [fromBytesBE_append, fromBytesBE_toBytesBE 8 millis h2', hlen]
  refine ⟨Security.fromBytesBE (Security.toBytesBE 8 millis ++ uid.take 8),
    ?_, ?_, ?_⟩
  · rw [Handler.proposalNum, henc]
    rfl
  · rw [hval]
    have hle : 2 ^ 64 ≤ millis * 256 ^ 8 := by
      calc (2 : Nat) ^ 64 = 1 * 256 ^ 8 := by norm_num
        _ ≤ millis * 256 ^ 8 := Nat.mul_le_mul_right _ h1
    omega
  · apply hashInput_prepare_overflow
    rw [Security.intToBytes, if_neg]
    rintro ⟨-, hlt⟩
    rw [hval] at hlt
    have hge : (256 : Nat) ^ 8 ≤
        millis * 256 ^ 8 + Security.fromBytesBE (uid.take 8) := by
      have := Nat.mul_le_mul_right (256 ^ 8) h1
      omega
    have hpow : ((256 : Int)) ^ 8 = ((256 ^ 8 : Nat) : Int) := by
      push_cast
    rw [hpow] at hlt
    have hltN : millis * 256 ^ 8 + Security.fromBytesBE (uid.take 8) <
        256 ^ 8 := by
      exact_mod_cast
        (show ((millis * 256 ^ 8 + Security.fromBytesBE (uid.take 8) : Nat) :
            Int) < ((256 ^ 8 : Nat) : Int) from hlt)
    omega

theorem claim_C9_witness :
    ∃ p : Nat,
      Handler.proposalNum 1 [0, 0, 0, 0, 0, 0, 0, 0, 0, 0, 0, 0, 0, 0, 0, 0] =
        some p ∧ 2 ^ 64 ≤ p ∧
      hashInput "s" (Msg.prepare "" (Int.ofNat p)) = Option.none :=
  claim_C9 1 [0, 0, 0, 0, 0, 0, 0, 0, 0, 0, 0, 0, 0, 0, 0, 0] "s" ""
    (by decide) (by norm_num) (by decide)

end SecurityTheorems

section CodecTheorems

open Message

theorem hexVal_hexDigitChar (d : Nat) (h : d < 16) :
    hexVal (hexDigitChar d) = some d := by
  interval_cases d <;> rfl

theorem hexDigitChar_ascii : ∀ d, (hexDigitChar d).toNat < 128
  | 0 => by decide
  | 1 => by decide
  | 2 => by decide
  | 3 => by decide
  | 4 => by decide
  | 5 => by decide
  | 6 => by decide
  | 7 => by decide
  | 8 => by decide
  | 9 => by decide
  | 10 => by decide
  | 11 => by decide
  | 12 => by decide
  | 13 => by decide
  | 14 => by decide
  | (n + 15) => by
    change (102 : Nat) < 128
    decide

theorem digitChar_digit : ∀ d, 48 ≤ (digitChar d).toNat ∧ (digitChar d).toNat ≤ 57
  | 0 => by decide
  | 1 => by decide
  | 2 => by decide
  | 3 => by decide
  | 4 => by decide
  | 5 => by decide
  | 6 => by decide
  | 7 => by decide
  | 8 => by decide
  | (n + 9) => by
    change 48 ≤ 57 ∧ 57 ≤ 57
    decide

theorem escapeChar_ascii (c : Char) (x : Char) (hx : x ∈ escapeChar c) :
    x.toNat < 128 := by
  rw [escapeChar] at hx
  split_ifs at hx with h1 h2 h3 h4 h5 h6 h7 h8 h9
  case _ | _ | _ | _ | _ | _ | _ =>
    rcases List.mem_cons.1 hx with h | hx
    · rw [h]; decide
    · rcases List.mem_cons.1 hx with h | hx
      · rw [h]; decide
      · simp at hx
  case _ =>
    rcases List.mem_singleton.1 hx with h
    rw [h]
    omega
  case _ =>
    rw [hex4] at hx
    rcases List.mem_cons.1 hx with h | hx
    · rw [h]; decide
    · rcases List.mem_cons.1 hx with h | hx
      · rw [h]; decide
      · rcases List.mem_cons.1 hx with h | hx
        · rw [h]; exact hexDigitChar_ascii _
        · rcases List.mem_cons.1 hx with h | hx
          · rw [h]; exact hexDigitChar_ascii _
          · rcases List.mem_cons.1 hx with h | hx
            · rw [h]; exact hexDigitChar_ascii _
            · rcases List.mem_cons.1 hx with h | hx
              · rw [h]; exact hexDigitChar_ascii _
              · simp at hx
  case _ =>
    rw [hex4, hex4] at hx
    rcases List.mem_append.1 hx with hx | hx <;>
    · rcases List.mem_cons.1 hx with h | hx
      · rw [h]; decide
      · rcases List.mem_cons.1 hx with h | hx
        · rw [h]; decide
        · rcases List.mem_cons.1 hx with h | hx
          · rw [h]; exact hexDigitChar_ascii _
          · rcases List.mem_cons.1 hx with h | hx
            · rw [h]; exact hexDigitChar_ascii _
            · rcases List.mem_cons.1 hx with h | hx
              · rw [h]; exact hexDigitChar_ascii _
              · rcases List.mem_cons.1 hx with h | hx
                · rw [h]; exact hexDigitChar_ascii _
                · simp at hx

theorem serString_ascii (s : String) (x : Char) (hx : x ∈ serString s) :
    x.toNat < 128 := by
  rw [serString] at hx
  rcases List.mem_cons.1 hx with h | hx
  · rw [h]; decide
  · rcases List.mem_append.1 hx with hx | hx
    · rcases List.mem_flatten.1 hx with ⟨l, hl, hxl⟩
      rcases List.mem_map.1 hl with ⟨c, hc, hcl⟩
      rw [← hcl] at hxl
      exact escapeChar_ascii c x hxl
    · rcases List.mem_singleton.1 hx with h
      rw [h]; decide

theorem natToDigitsAux_digits (fuel n : Nat) :
    allDigits (natToDigitsAux fuel n) := by
  induction fuel generalizing n with
  | zero => intro c hc; simp [natToDigitsAux] at hc
  | succ k ih =>
    intro c hc
    rw [natToDigitsAux] at hc
    split at hc
    · simp only [List.mem_singleton] at hc
      rw [hc]
      exact digitChar_digit n
    · simp only [List.mem_append, List.mem_singleton] at hc
      rcases hc with hc | hc
      · exact ih (n / 10) c hc
      · rw [hc]
        exact digitChar_digit (n % 10)

theorem serInt_ascii (n : Int) (x : Char) (hx : x ∈ serInt n) :
    x.toNat < 128 := by
  rw [serInt] at hx
  have hdig : ∀ m (y : Char), y ∈ natToDec m → y.toNat < 128 := by
    intro m y hy
    have := natToDigitsAux_digits (m + 1) m y hy
    omega
  split at hx
  · simp only [List.mem_cons] at hx
    rcases hx with h | hx
    · rw [h]; decide
    · exact hdig _ x hx
  · exact hdig _ x hx

theorem serVal_ascii (v : JVal) (x : Char) (hx : x ∈ serVal v) :
    x.toNat < 128 := by
  cases v with
  | jstr s => exact serString_ascii s x hx
  | jint n => exact serInt_ascii n x hx
  | jbool b =>
    cases b <;> simp only [serVal, List.mem_cons, List.not_mem_nil,
      or_false] at hx
    · rcases hx with h | h | h | h | h <;> rw [h] <;> decide
    · rcases hx with h | h | h | h <;> rw [h] <;> decide
  | jnull =>
    simp only [serVal, List.mem_cons, List.not_mem_nil, or_false] at hx
    rcases hx with h | h | h | h <;> rw [h] <;> decide

theorem serMembers_ascii (ms : List (String × JVal)) (x : Char)
    (hx : x ∈ serMembers ms) : x.toNat < 128 := by
  induction ms with
  | nil => simp [serMembers] at hx
  | cons kv rest ih =>
    obtain ⟨k, v⟩ := kv
    cases rest with
    | nil =>
      have heq : serMembers [(k, v)] =
          serString k ++ ':' :: ' ' :: serVal v := rfl
      rw [heq] at hx
      rcases List.mem_append.1 hx with hx | hx
      · exact serString_ascii k x hx
      · rcases List.mem_cons.1 hx with h | hx
        · rw [h]; decide
        · rcases List.mem_cons.1 hx with h | hx
          · rw [h]; decide
          · exact serVal_ascii v x hx
    | cons kv2 rest2 =>
      have heq : serMembers ((k, v) :: kv2 :: rest2) =
          serString k ++ ':' :: ' ' :: serVal v ++ ',' :: ' ' ::
            serMembers (kv2 :: rest2) := rfl
      rw [heq] at hx
      rcases List.mem_append.1 hx with hx | hx
      · rcases List.mem_append.1 hx with hx | hx
        · exact serString_ascii k x hx
        · rcases List.mem_cons.1 hx with h | hx
          · rw [h]; decide
          · rcases List.mem_cons.1 hx with h | hx
            · rw [h]; decide
            · exact serVal_ascii v x hx
      · rcases List.mem_cons.1 hx with h | hx
        · rw [h]; decide
        · rcases List.mem_cons.1 hx with h | hx
          · rw [h]; decide
          · exact ih hx

theorem serObj_ascii (ms : List (String × JVal)) (x : Char)
    (hx : x ∈ serObj ms) : x.toNat < 128 := by
  rw [serObj] at hx
  rcases List.mem_cons.1 hx with h | hx
  · rw [h]; decide
  · rcases List.mem_append.1 hx with hx | hx
    · exact serMembers_ascii ms x hx
    · rcases List.mem_singleton.1 hx with h
      rw [h]; decide

theorem asciiDecode_map (l : List Char) (h : ∀ c ∈ l, c.toNat < 128) :
    asciiDecode (l.map Char.toNat) = some l := by
  induction l with
  | nil => rfl
  | cons c rest ih =>
    have hc : c.toNat < 128 := h c (by simp)
    have hrest := ih (fun x hx => h x (by simp [hx]))
    simp only [List.map_cons, asciiDecode, hc, if_true, hrest,
      Char.ofNat_toNat]

end CodecTheorems

section CodecTheorems2

open Message

theorem parseU4_hex4 (n : Nat) (hn : n < 65536) (rest : List Char) :
    parseU4 (hex4 n ++ rest) = some (n, rest) := by
  rw [hex4]
  simp only [List.cons_append, List.nil_append]
  rw [parseU4]
  rw [hexVal_hexDigitChar _ (by omega), hexVal_hexDigitChar _ (by omega),
    hexVal_hexDigitChar _ (by omega), hexVal_hexDigitChar _ (by omega)]
  try dsimp only
  have hsum : 4096 * (n / 4096 % 16) + 256 * (n / 256 % 16) +
      16 * (n / 16 % 16) + n % 16 = n := by omega
  rw [hsum]

theorem parseStringBody_esc (fuel : Nat) (e u : Char) (rest : List Char)
    (res : List Char × List Char) (hne : e ≠ 'u')
    (hesc : unescape e = some u)
    (hres : parseStringBody fuel rest = some res) :
    parseStringBody (fuel + 1) ('\\' :: e :: rest) =
      some (u :: res.1, res.2) := by
  rw [parseStringBody]
  rw [if_neg (by decide), if_pos rfl]
  try dsimp only
  rw [if_neg hne, hesc]
  try dsimp only
  rw [hres]

theorem parseStringBody_u (fuel n : Nat) (hn : n < 65536)
    (hvalid : n < 55296 ∨ 57343 < n) (rest : List Char)
    (res : List Char × List Char)
    (hres : parseStringBody fuel rest = some res) :
    parseStringBody (fuel + 1) ('\\' :: 'u' :: hex4 n ++ rest) =
      some (Char.ofNat n :: res.1, res.2) := by
  simp only [List.cons_append]
  rw [parseStringBody]
  rw [if_neg (by decide), if_pos rfl]
  try dsimp only
  rw [if_pos rfl]
  rw [parseU4_hex4 n hn rest]
  try dsimp only
  rw [if_neg (by omega)]
  rw [hres]

theorem parseStringBody_pair (fuel n : Nat) (hn : 65536 ≤ n)
    (hub : n < 1114112) (rest : List Char) (res : List Char × List Char)
    (hres : parseStringBody fuel rest = some res) :
    parseStringBody (fuel + 1)
        (('\\' :: 'u' :: hex4 (55296 + (n - 65536) / 1024)) ++
         ('\\' :: 'u' :: hex4 (56320 + (n - 65536) % 1024)) ++ rest) =
      some (Char.ofNat n :: res.1, res.2) := by
  simp only [List.cons_append, List.append_assoc]
  rw [parseStringBody]
  rw [if_neg (by decide), if_pos rfl]
  try dsimp only
  rw [if_pos rfl]
  rw [show hex4 (55296 + (n - 65536) / 1024) ++
      ('\\' :: 'u' :: (hex4 (56320 + (n - 65536) % 1024) ++ rest)) =
      hex4 (55296 + (n - 65536) / 1024) ++
      ('\\' :: 'u' :: (hex4 (56320 + (n - 65536) % 1024) ++ rest)) from rfl]
  rw [parseU4_hex4 _ (by omega)]
  try dsimp only
  rw [if_pos (by omega), if_pos (by omega)]
  try dsimp only
  rw [if_pos rfl, if_pos rfl]
  rw [parseU4_hex4 _ (by omega)]
  try dsimp only
  rw [if_pos (by omega)]
  rw [hres]
  try dsimp only
  have harg : 65536 + (55296 + (n - 65536) / 1024 - 55296) * 1024 +
      (56320 + (n - 65536) % 1024 - 56320) = n := by
    omega
  rw [harg]

theorem parseStringBody_escapeChar (fuel : Nat) (c : Char)
    (rest : List Char) (res : List Char × List Char)
    (hres : parseStringBody fuel rest = some res) :
    parseStringBody (fuel + 1) (escapeChar c ++ rest) =
      some (c :: res.1, res.2) := by
  have hv := c.valid
  rw [escapeChar]
  split_ifs with h1 h2 h3 h4 h5 h6 h7 h8 h9
  · rw [h1]
    exact parseStringBody_esc fuel '\"' '\"' rest res (by decide) rfl hres
  · rw [h2]
    exact parseStringBody_esc fuel '\\' '\\' rest res (by decide) rfl hres
  · rw [h3]
    exact parseStringBody_esc fuel 'b' (Char.ofNat 8) rest res (by decide)
      rfl hres
  · rw [h4]
    exact parseStringBody_esc fuel 't' '\t' rest res (by decide) rfl hres
  · rw [h5]
    exact parseStringBody_esc fuel 'n' '\n' rest res (by decide) rfl hres
  · rw [h6]
    exact parseStringBody_esc fuel 'f' (Char.ofNat 12) rest res (by decide)
      rfl hres
  · rw [h7]
    exact parseStringBody_esc fuel 'r' '\r' rest res (by decide) rfl hres
  · simp only [List.cons_append, List.nil_append]
    rw [parseStringBody.eq_def]
    try dsimp only
    rw [if_neg h1, if_neg h2, hres]
  · have hvalid : c.toNat < 55296 ∨ 57343 < c.toNat := by
      rcases hv with h | ⟨ha, _⟩
      · exact Or.inl h
      · exact Or.inr ha
    have h := parseStringBody_u fuel c.toNat h9 hvalid rest res hres
    rw [Char.ofNat_toNat] at h
    simpa using h
  · have hge : 65536 ≤ c.toNat := Nat.le_of_not_lt h9
    have hub : c.toNat < 1114112 := by
      rcases hv with h | ⟨_, hb⟩
      · have h' : c.toNat < 55296 := h
        omega
      · exact hb
    have h := parseStringBody_pair fuel c.toNat hge hub rest res hres
    rw [Char.ofNat_toNat] at h
    simpa using h

theorem parseStringBody_ser (cs : List Char) :
    ∀ (fuel : Nat) (tail : List Char), cs.length < fuel →
    parseStringBody fuel ((cs.map escapeChar).flatten ++ '\"' :: tail) =
      some (cs, tail) := by
  induction cs with
  | nil =>
    intro fuel tail hfuel
    match fuel, hfuel with
    | f + 1, _ =>
      simp only [List.map_nil, List.flatten_nil, List.nil_append]
      rw [parseStringBody.eq_def]
      try dsimp only
      rw [if_pos rfl]
  | cons c cs ih =>
    intro fuel tail hfuel
    match fuel, hfuel with
    | f + 1, hfuel =>
      simp only [List.map_cons, List.flatten_cons, List.append_assoc]
      exact parseStringBody_escapeChar f c _ (cs, tail)
        (ih f tail (by simpa using Nat.lt_of_succ_lt_succ hfuel))

theorem escapeChar_length_pos (c : Char) : 1 ≤ (escapeChar c).length := by
  rw [escapeChar]
  split_ifs <;> simp [hex4]

theorem parseString_ser (cs : List Char) (tail : List Char) :
    parseString ((cs.map escapeChar).flatten ++ '\"' :: tail) =
      some (cs, tail) := by
  have hlen : cs.length ≤ ((cs.map escapeChar).flatten).length := by
    induction cs with
    | nil => simp
    | cons c cs ih =>
      simp only [List.map_cons, List.flatten_cons, List.length_cons,
        List.length_append]
      have := escapeChar_length_pos c
      omega
  rw [parseString]
  apply parseStringBody_ser
  simp only [List.length_append, List.length_cons]
  omega

end CodecTheorems2

section CodecTheorems3

open Message

theorem digitChar_val : ∀ d, d < 10 → (digitChar d).toNat = 48 + d := by
  decide

theorem parseDigitsAux_run (A : List Char) (hA : allDigits A) :
    ∀ (acc : Nat) (rest : List Char),
    parseDigitsAux acc (A ++ rest) = parseDigitsAux (digitsValFrom acc A) rest := by
  induction A with
  | nil => intro acc rest; rfl
  | cons c A ih =>
    intro acc rest
    have hc : 48 ≤ c.toNat ∧ c.toNat ≤ 57 := hA c (by simp)
    have hAtail : allDigits A := fun x hx => hA x (by simp [hx])
    simp only [List.cons_append]
    rw [parseDigitsAux]
    rw [if_pos (by simp [isDigitC]; omega)]
    rw [ih hAtail]
    rfl

theorem parseDigitsAux_stop (acc : Nat) (rest : List Char)
    (h : nonDigitStart rest) : parseDigitsAux acc rest = (acc, rest) := by
  cases rest with
  | nil => rfl
  | cons c rest =>
    rw [parseDigitsAux]
    rw [if_neg (by simp only [isDigitC, decide_eq_true_eq]; exact h)]

theorem digitsValFrom_natToDigitsAux (fuel : Nat) :
    ∀ n, n < fuel → ∀ acc,
    digitsValFrom acc (natToDigitsAux fuel n) =
      acc * 10 ^ (natToDigitsAux fuel n).length + n := by
  induction fuel with
  | zero => intro n hn; omega
  | succ f ih =>
    intro n hn acc
    rw [natToDigitsAux]
    split
    · rename_i hlt
      simp only [digitsValFrom, List.foldl_cons, List.foldl_nil,
        List.length_singleton]
      rw [digitChar_val n hlt]
      omega
    · rename_i hge
      have hdiv : n / 10 < f := by omega
      simp only [digitsValFrom, List.foldl_append, List.foldl_cons,
        List.foldl_nil, List.length_append, List.length_singleton]
      have hmodval : (digitChar (n % 10)).toNat = 48 + n % 10 :=
        digitChar_val (n % 10) (by omega)
      rw [hmodval]
      have hrec := ih (n / 10) hdiv acc
      rw [digitsValFrom] at hrec
      rw [hrec]
      set L := (natToDigitsAux f (n / 10)).length with hL
      calc 10 * (acc * 10 ^ L + n / 10) + (48 + n % 10 - 48)
          = acc * (10 ^ L * 10) + (10 * (n / 10) + n % 10) := by ring_nf; omega
        _ = acc * 10 ^ (L + 1) + n := by
            rw [← pow_succ]
            omega

theorem natToDec_val (n : Nat) :
    digitsValFrom 0 (natToDec n) = n := by
  rw [natToDec]
  rw [digitsValFrom_natToDigitsAux (n + 1) n (by omega) 0]
  omega

theorem natToDigitsAux_ne_nil (f n : Nat) : natToDigitsAux (f + 1) n ≠ [] := by
  rw [natToDigitsAux]
  split
  · simp
  · simp

theorem natToDec_head (n : Nat) :
    ∃ d D, natToDec n = d :: D ∧ 48 ≤ d.toNat ∧ d.toNat ≤ 57 := by
  rcases hcons : natToDec n with _ | ⟨d, D⟩
  · exact absurd hcons (natToDigitsAux_ne_nil n n)
  · refine ⟨d, D, rfl, ?_⟩
    have := natToDigitsAux_digits (n + 1) n d (by rw [← natToDec, hcons]; simp)
    exact this

theorem parseInt_serInt (n : Int) (tail : List Char)
    (htail : nonDigitStart tail) :
    parseInt (serInt n ++ tail) = some (n, tail) := by
  have hrun : ∀ m, parseDigitsAux 0 (natToDec m ++ tail) = (m, tail) := by
    intro m
    rw [parseDigitsAux_run (natToDec m)
      (fun x hx => natToDigitsAux_digits (m + 1) m x hx) 0 tail]
    rw [natToDec_val]
    exact parseDigitsAux_stop m tail htail
  rw [serInt]
  split_ifs with hneg
  · obtain ⟨d, D, hD, hd1, hd2⟩ := natToDec_head (-n).toNat
    simp only [List.cons_append]
    rw [parseInt.eq_def]
    dsimp only
    rw [if_pos rfl]
    rw [hD]
    simp only [List.cons_append]
    rw [if_pos (by simp [isDigitC]; omega)]
    have h0 : d :: (D ++ tail) = natToDec (-n).toNat ++ tail := by
      rw [hD, List.cons_append]
    rw [h0, hrun ((-n).toNat)]
    have hcast : (Int.ofNat (-n).toNat) = -n := by
      show (((-n).toNat : Nat) : Int) = -n
      exact Int.toNat_of_nonneg (by omega)
    rw [hcast]
    rw [neg_neg]
  · obtain ⟨d, D, hD, hd1, hd2⟩ := natToDec_head n.toNat
    rw [hD]
    simp only [List.cons_append]
    rw [parseInt.eq_def]
    dsimp only
    rw [if_neg (by intro h; rw [h] at hd1; exact absurd hd1 (by decide))]
    rw [if_pos (by simp [isDigitC]; omega)]
    have h0 : d :: (D ++ tail) = natToDec n.toNat ++ tail := by
      rw [hD, List.cons_append]
    rw [h0, hrun n.toNat]
    have hcast : (Int.ofNat n.toNat) = n := by
      show ((n.toNat : Nat) : Int) = n
      exact Int.toNat_of_nonneg (by omega)
    rw [hcast]

end CodecTheorems3

section CodecTheorems4

open Message

theorem serInt_head (n : Int) :
    ∃ d D, serInt n = d :: D ∧
      (d.toNat = 45 ∨ (48 ≤ d.toNat ∧ d.toNat ≤ 57)) := by
  rw [serInt]
  split_ifs with hneg
  · exact ⟨'-', natToDec (-n).toNat, rfl, Or.inl rfl⟩
  · obtain ⟨d, D, hD, hd1, hd2⟩ := natToDec_head n.toNat
    exact ⟨d, D, hD, Or.inr ⟨hd1, hd2⟩⟩

theorem string_mk_data (s : String) : String.mk s.data = s := by
  cases s
  rfl

theorem parseVal_serVal (v : JVal) (tail : List Char)
    (htail : nonDigitStart tail) :
    parseVal (serVal v ++ tail) = some (v, tail) := by
  cases v with
  | jstr s =>
    have hshape : serVal (.jstr s) ++ tail =
        '\"' :: ((s.data.map escapeChar).flatten ++ '\"' :: tail) := by
      simp [serVal, serString, List.append_assoc]
    rw [hshape]
    rw [parseVal.eq_def]
    dsimp only
    rw [if_pos rfl]
    rw [parseString_ser s.data tail]
  | jint n =>
    obtain ⟨d, D, hD, hd⟩ := serInt_head n
    have hshape : serVal (.jint n) ++ tail = d :: (D ++ tail) := by
      simp [serVal, hD]
    rw [hshape]
    rw [parseVal.eq_def]
    dsimp only
    rw [if_neg (by intro h; rw [h] at hd; revert hd; decide)]
    rw [if_neg (by intro h; rw [h] at hd; revert hd; decide)]
    rw [if_neg (by intro h; rw [h] at hd; revert hd; decide)]
    rw [if_neg (by intro h; rw [h] at hd; revert hd; decide)]
    have hback : d :: (D ++ tail) = serInt n ++ tail := by
      rw [hD, List.cons_append]
    rw [hback, parseInt_serInt n tail htail]
  | jbool b => cases b <;> rfl
  | jnull => rfl

theorem isWsC_eq_false (d : Char)
    (h : d.toNat ≠ 32 ∧ d.toNat ≠ 9 ∧ d.toNat ≠ 10 ∧ d.toNat ≠ 13) :
    isWsC d = false := by
  rw [isWsC]
  have h1 : decide (d = ' ') = false :=
    decide_eq_false (fun hh => by rw [hh] at h; exact h.1 rfl)
  have h2 : decide (d = '\t') = false :=
    decide_eq_false (fun hh => by rw [hh] at h; exact h.2.1 rfl)
  have h3 : decide (d = '\n') = false :=
    decide_eq_false (fun hh => by rw [hh] at h; exact h.2.2.1 rfl)
  have h4 : decide (d = '\r') = false :=
    decide_eq_false (fun hh => by rw [hh] at h; exact h.2.2.2 rfl)
  rw [h1, h2, h3, h4]
  rfl

theorem skipWs_nonWs (d : Char) (cs : List Char) (h : isWsC d = false) :
    skipWs (d :: cs) = d :: cs := by
  simp [skipWs, List.dropWhile_cons, h]

theorem skipWs_space (cs : List Char) : skipWs (' ' :: cs) = skipWs cs := by
  simp [skipWs, List.dropWhile_cons, isWsC]

theorem serVal_head (v : JVal) :
    ∃ d D, serVal v = d :: D ∧ isWsC d = false ∧ d.toNat ≠ 32 := by
  cases v with
  | jstr s =>
    refine ⟨'\"', _, rfl, ?_, by decide⟩
    exact isWsC_eq_false '\"' (by decide)
  | jint n =>
    obtain ⟨d, D, hD, hd⟩ := serInt_head n
    refine ⟨d, D, by simp [serVal, hD], ?_, ?_⟩
    · exact isWsC_eq_false d (by omega)
    · omega
  | jbool b =>
    cases b
    · exact ⟨'f', _, rfl, isWsC_eq_false 'f' (by decide), by decide⟩
    · exact ⟨'t', _, rfl, isWsC_eq_false 't' (by decide), by decide⟩
  | jnull => exact ⟨'n', _, rfl, isWsC_eq_false 'n' (by decide), by decide⟩

end CodecTheorems4

section CodecTheorems5

open Message

theorem parseMembersAux_skip (fuel : Nat) (cs : List Char) :
    parseMembersAux (fuel + 1) (' ' :: cs) = parseMembersAux (fuel + 1) cs := by
  rw [parseMembersAux.eq_def]
  conv_rhs => rw [parseMembersAux.eq_def]
  dsimp only
  rw [skipWs_space]

theorem serMembers_head (k : String) (v : JVal) (ms : List (String × JVal)) :
    ∃ S, serMembers ((k, v) :: ms) = '\"' :: S := by
  cases ms with
  | nil =>
    refine ⟨(k.data.map escapeChar).flatten ++ '\"' :: ':' :: ' ' ::
      serVal v, ?_⟩
    simp [serMembers, serString]
  | cons kv2 rest =>
    refine ⟨(k.data.map escapeChar).flatten ++ '\"' :: ':' :: ' ' ::
      (serVal v ++ ',' :: ' ' :: serMembers (kv2 :: rest)), ?_⟩
    have heq : serMembers ((k, v) :: kv2 :: rest) =
        serString k ++ ':' :: ' ' :: serVal v ++ ',' :: ' ' ::
          serMembers (kv2 :: rest) := rfl
    rw [heq]
    simp [serString]

theorem serMembers_length_ge (ms : List (String × JVal)) :
    ms.length ≤ (serMembers ms).length := by
  induction ms with
  | nil => simp [serMembers]
  | cons kv ms' ih =>
    obtain ⟨k, v⟩ := kv
    cases ms' with
    | nil =>
      have heq : serMembers [(k, v)] =
          serString k ++ ':' :: ' ' :: serVal v := rfl
      rw [heq]
      simp [serString]
    | cons kv2 rest =>
      have heq : serMembers ((k, v) :: kv2 :: rest) =
          serString k ++ ':' :: ' ' :: serVal v ++ ',' :: ' ' ::
            serMembers (kv2 :: rest) := rfl
      rw [heq]
      simp only [List.length_cons, List.length_append]
      simp only [List.length_cons] at ih
      omega

theorem parseMembersAux_ser (ms : List (String × JVal)) :
    ∀ (fuel : Nat) (tail : List Char), ms ≠ [] → ms.length < fuel →
    parseMembersAux fuel (serMembers ms ++ Char.ofNat 125 :: tail) =
      some (ms, tail) := by
  induction ms with
  | nil => intro fuel tail hne; exact absurd rfl hne
  | cons kv ms' ih =>
    obtain ⟨k, v⟩ := kv
    intro fuel tail hne hfuel
    obtain ⟨f, rfl⟩ : ∃ f, fuel = f + 1 := ⟨fuel - 1, by omega⟩
    obtain ⟨d, D, hD, hdws, _⟩ := serVal_head v
    cases ms' with
    | nil =>
      have hinput : serMembers [(k, v)] ++ Char.ofNat 125 :: tail =
          '\"' :: ((k.data.map escapeChar).flatten ++ '\"' :: ':' :: ' ' ::
            (serVal v ++ Char.ofNat 125 :: tail)) := by
        simp [serMembers, serString]
      rw [hinput]
      rw [parseMembersAux.eq_def]
      dsimp only
      rw [skipWs_nonWs _ _ (isWsC_eq_false '\"' (by decide))]
      dsimp only
      rw [if_pos rfl]
      rw [parseString_ser k.data]
      dsimp only
      rw [skipWs_nonWs ':' _ (isWsC_eq_false ':' (by decide))]
      dsimp only
      rw [if_pos rfl]
      rw [skipWs_space]
      have hval : serVal v ++ Char.ofNat 125 :: tail =
          d :: (D ++ Char.ofNat 125 :: tail) := by
        rw [hD, List.cons_append]
      rw [hval, skipWs_nonWs d _ hdws, ← hval]
      have hnd : nonDigitStart (Char.ofNat 125 :: tail) := by
        show ¬(48 ≤ (Char.ofNat 125).toNat ∧ (Char.ofNat 125).toNat ≤ 57)
        decide
      rw [parseVal_serVal v _ hnd]
      dsimp only
      rw [skipWs_nonWs _ _ (isWsC_eq_false (Char.ofNat 125) (by decide))]
      dsimp only
      rw [if_neg (by decide), if_pos rfl]
    | cons kv2 rest =>
      have hmem : serMembers ((k, v) :: kv2 :: rest) =
          serString k ++ ':' :: ' ' :: serVal v ++ ',' :: ' ' ::
            serMembers (kv2 :: rest) := rfl
      have hinput : serMembers ((k, v) :: kv2 :: rest) ++
          Char.ofNat 125 :: tail =
          '\"' :: ((k.data.map escapeChar).flatten ++ '\"' :: ':' :: ' ' ::
            (serVal v ++ ',' :: ' ' ::
              (serMembers (kv2 :: rest) ++ Char.ofNat 125 :: tail))) := by
        rw [hmem]
        simp [serString]
      rw [hinput]
      rw [parseMembersAux.eq_def]
      dsimp only
      rw [skipWs_nonWs _ _ (isWsC_eq_false '\"' (by decide))]
      dsimp only
      rw [if_pos rfl]
      rw [parseString_ser k.data]
      dsimp only
      rw [skipWs_nonWs ':' _ (isWsC_eq_false ':' (by decide))]
      dsimp only
      rw [if_pos rfl]
      rw [skipWs_space]
      have hval : serVal v ++ ',' :: ' ' ::
          (serMembers (kv2 :: rest) ++ Char.ofNat 125 :: tail) =
          d :: (D ++ ',' :: ' ' ::
            (serMembers (kv2 :: rest) ++ Char.ofNat 125 :: tail)) := by
        rw [hD, List.cons_append]
      rw [hval, skipWs_nonWs d _ hdws, ← hval]
      have hnd : nonDigitStart (',' :: ' ' ::
          (serMembers (kv2 :: rest) ++ Char.ofNat 125 :: tail)) := by
        show ¬(48 ≤ (',' : Char).toNat ∧ (',' : Char).toNat ≤ 57)
        decide
      rw [parseVal_serVal v _ hnd]
      dsimp only
      rw [skipWs_nonWs ',' _ (isWsC_eq_false ',' (by decide))]
      dsimp only
      rw [if_pos rfl]
      obtain ⟨g, rfl⟩ : ∃ g, f = g + 1 := by
        refine ⟨f - 1, ?_⟩
        simp only [List.length_cons] at hfuel
        omega
      rw [parseMembersAux_skip]
      rw [ih (g + 1) tail (by simp) (by
        simp only [List.length_cons] at hfuel ⊢
        omega)]

theorem parseObj_serObj (ms : List (String × JVal)) :
    parseObj (serObj ms) = some (ms, []) := by
  rw [serObj, parseObj]
  simp only [List.cons_append]
  rw [skipWs_nonWs _ _ (isWsC_eq_false (Char.ofNat 123) (by decide))]
  dsimp only
  rw [if_pos rfl]
  cases ms with
  | nil =>
    have : serMembers ([] : List (String × JVal)) ++ [Char.ofNat 125] =
        [Char.ofNat 125] := rfl
    rw [this]
    rw [skipWs_nonWs _ _ (isWsC_eq_false (Char.ofNat 125) (by decide))]
    dsimp only
    rw [if_pos rfl]
  | cons kv ms' =>
    obtain ⟨k, v⟩ := kv
    obtain ⟨S, hS⟩ := serMembers_head k v ms'
    have hshape : serMembers ((k, v) :: ms') ++ [Char.ofNat 125] =
        '\"' :: (S ++ [Char.ofNat 125]) := by
      rw [hS, List.cons_append]
    rw [hshape]
    rw [skipWs_nonWs _ _ (isWsC_eq_false '\"' (by decide))]
    dsimp only
    rw [if_neg (by decide)]
    rw [← hshape]
    have hlen : ((k, v) :: ms').length <
        (serMembers ((k, v) :: ms') ++ [Char.ofNat 125]).length + 1 := by
      have := serMembers_length_ge ((k, v) :: ms')
      simp only [List.length_append, List.length_singleton]
      omega
    have := parseMembersAux_ser ((k, v) :: ms')
      ((serMembers ((k, v) :: ms') ++ [Char.ofNat 125]).length + 1)
      [] (by simp) hlen
    simpa using this

theorem jsonLoads_ser (ms : List (String × JVal)) :
    jsonLoads ((serObj ms).map Char.toNat) = some ms := by
  rw [jsonLoads]
  rw [asciiDecode_map _ (serObj_ascii ms)]
  dsimp only
  rw [parseObj_serObj]
  dsimp only
  rw [if_pos (by rfl)]

end CodecTheorems5

section CodecTheorems6

open Message

theorem fromJson_toJson (m : Msg) :
    fromJson (kindCode m) (toJson m) = some m := by
  cases m <;> first | rfl | (rename_i prev; cases prev <;> rfl)

theorem toBytesBE_length (len : Nat) : ∀ n, (Security.toBytesBE len n).length = len := by
  induction len with
  | zero => intro n; rfl
  | succ k ih =>
    intro n
    rw [Security.toBytesBE]
    simp [ih]

theorem headerDecode_headerEncode (L K : Nat) (hL : L < 4294967296)
    (hK1 : 1 ≤ K) (hK2 : K ≤ 13) :
    headerDecode (Security.toBytesBE 4 L ++ [K]) = some (L, K) := by
  have hlist : Security.toBytesBE 4 L =
      [L / 256 / 256 / 256 % 256, L / 256 / 256 % 256, L / 256 % 256,
       L % 256] := rfl
  rw [hlist]
  simp only [List.cons_append, List.nil_append]
  rw [headerDecode.eq_def]
  try dsimp only
  rw [if_pos ⟨hK1, hK2⟩]
  rw [← hlist, fromBytesBE_toBytesBE 4 L (by norm_num; omega)]

theorem kindCode_bounds (m : Msg) : 1 ≤ kindCode m ∧ kindCode m ≤ 13 := by
  cases m <;> exact ⟨by norm_num [kindCode], by norm_num [kindCode]⟩

/-- Claim C8: decoding an encoded message — Header.decode on the first
five bytes, then decode on the remaining bytes — yields the original
message, whenever the encoding exists (struct.pack raises if the payload
length exceeds the u32 field, so encode is partial). -/
theorem claim_C8 (m : Msg) (e : List Nat) (henc : encode m = some e) :
    (headerDecode (e.take 5)).bind (fun hdr => decode hdr (e.drop 5)) =
      some m := by
  rw [encode] at henc
  cases hhe : headerEncode ((serObj (toJson m)).map Char.toNat).length
      (kindCode m) with
  | none =>
    rw [hhe] at henc
    exact absurd henc (by simp)
  | some hdr =>
    rw [hhe] at henc
    simp only [Option.some.injEq] at henc
    rw [headerEncode] at hhe
    split_ifs at hhe with hcond
    · simp only [Option.some.injEq] at hhe
      subst hhe
      subst henc
      have hlen5 : (Security.toBytesBE 4
          ((serObj (toJson m)).map Char.toNat).length ++ [kindCode m]).length
          = 5 := by
        simp [toBytesBE_length]
      rw [List.take_left' hlen5, List.drop_left' hlen5]
      rw [headerDecode_headerEncode _ _ hcond.1 (kindCode_bounds m).1
        (kindCode_bounds m).2]
      show decode (((serObj (toJson m)).map Char.toNat).length, kindCode m)
        ((serObj (toJson m)).map Char.toNat) = some m
      rw [decode]
      rw [if_pos rfl]
      rw [jsonLoads_ser (toJson m)]
      try dsimp only
      rw [fromJson_toJson]

theorem claim_C8_witness :
    (headerDecode (([0, 0, 0, 31, 10, 123, 34, 118, 97, 108, 117, 101, 34,
        58, 32, 34, 97, 34, 44, 32, 34, 114, 101, 99, 117, 114, 115, 101,
        34, 58, 32, 116, 114, 117, 101, 125] : List Nat).take 5)).bind
      (fun hdr =>
        decode hdr (([0, 0, 0, 31, 10, 123, 34, 118, 97, 108, 117, 101, 34,
          58, 32, 34, 97, 34, 44, 32, 34, 114, 101, 99, 117, 114, 115, 101,
          34, 58, 32, 116, 114, 117, 101, 125] : List Nat).drop 5)) =
      some (Msg.search "a" true) :=
  claim_C8 (Msg.search "a" true) _ (by decide)

end CodecTheorems6
